import Mathlib

/-!
Verification of the hash-chained ledger implemented in `src/app.py`
(class `Blockchain`).

The embedding mirrors the Python source:

* Python dict/list/str/int values that can appear inside a block are the
  inductive `JVal`; a block (and a transaction) is an insertion-ordered
  association list `Dict`, the shallow embedding of a Python `dict`.
* `Blockchain.hash` is SHA-256 over `json.dumps(block_copy, sort_keys=True)`
  after popping the `"hash"` key, exactly as in the source: the JSON
  serializer sorts keys lexicographically at every object, escapes strings
  the way `json.dumps` does (`ensure_ascii=True`), and the digest is the
  lowercase hex of a full executable SHA-256.
* `time.time()` is an external input: every operation that reads the clock
  takes the timestamp as an explicit argument (timestamps are modelled as
  integers; nothing below depends on their value).
* Python exceptions (`IndexError` from `chain[-1]` on an empty list,
  `KeyError`/`TypeError` from subscripting) are modelled with `Except`;
  an operation returns the raised error together with the state as it is
  at the moment of the raise.
-/

/-- A Python value as it can occur inside a block: an int, a str, a list,
or a dict (insertion-ordered key/value pairs). Numbers are modelled as
integers: the source stores `int` proofs and indices, and the wall-clock
and amount floats are opaque payload whose numeric type nothing inspects. -/
inductive JVal where
  | jnum (n : Int)
  | jstr (s : String)
  | jarr (xs : List JVal)
  | jobj (kvs : List (String × JVal))

/-- A Python dict with `JVal` values, as an insertion-ordered association
list (dicts never hold two entries with one key; operations below keep
that shape). -/
abbrev Dict := List (String × JVal)

mutual
/-- Python `==` on two values (structural; only ever applied to hash
strings by the validator below). -/
def jvalBeq : JVal → JVal → Bool
  | .jnum a, .jnum b => a == b
  | .jstr a, .jstr b => a == b
  | .jarr a, .jarr b => jarrBeq a b
  | .jobj a, .jobj b => jobjBeq a b
  | _, _ => false
def jarrBeq : List JVal → List JVal → Bool
  | [], [] => true
  | a :: as_, b :: bs => jvalBeq a b && jarrBeq as_ bs
  | _, _ => false
def jobjBeq : Dict → Dict → Bool
  | [], [] => true
  | (k1, v1) :: r1, (k2, v2) :: r2 => k1 == k2 && jvalBeq v1 v2 && jobjBeq r1 r2
  | _, _ => false
end

/-- Python `==` on optional values (`none` stands for a missing key). -/
def optBeq : Option JVal → Option JVal → Bool
  | none, none => true
  | some a, some b => jvalBeq a b
  | _, _ => false

/-- Dict lookup `d[k]`: the value at key `k`, `none` when absent. -/
def dictGet (d : Dict) (k : String) : Option JVal :=
  match d with
  | [] => none
  | (k1, v) :: rest => if k1 = k then some v else dictGet rest k

/-- Dict update `d[k] = v`: replace in place when the key exists, append
otherwise (Python dicts keep the position of an updated key). -/
def dictSet (d : Dict) (k : String) (v : JVal) : Dict :=
  match d with
  | [] => [(k, v)]
  | (k1, v1) :: rest => if k1 = k then (k1, v) :: rest else (k1, v1) :: dictSet rest k v

/-- Dict removal `d.pop(k, None)`: drop the entry at key `k`. -/
def eraseKey (k : String) : Dict → Dict
  | [] => []
  | (k1, v) :: rest => if k1 = k then eraseKey k rest else (k1, v) :: eraseKey k rest

mutual
/-- Sizes for the nested value type, used as the termination measure of
the serializer. -/
def jsize : JVal → Nat
  | .jnum _ => 1
  | .jstr _ => 1
  | .jarr xs => 1 + jsizeArr xs
  | .jobj kvs => 1 + jsizeObj kvs
def jsizeArr : List JVal → Nat
  | [] => 0
  | x :: xs => 1 + jsize x + jsizeArr xs
def jsizeObj : Dict → Nat
  | [] => 0
  | kv :: rest => 1 + jsize kv.2 + jsizeObj rest
end

/-- Key order used by `json.dumps(…, sort_keys=True)`: compare entries by
their key string. -/
def keyLe (a b : String × JVal) : Prop := a.1 ≤ b.1

instance : DecidableRel keyLe := fun a b => inferInstanceAs (Decidable (a.1 ≤ b.1))

instance : IsTotal (String × JVal) keyLe := ⟨fun a b => le_total a.1 b.1⟩

instance : IsTrans (String × JVal) keyLe := ⟨fun _ _ _ h1 h2 => le_trans h1 h2⟩

/-- Sort the members of an object by key, as `sort_keys=True` does. -/
def sortByKey (l : Dict) : Dict := List.insertionSort keyLe l

theorem jsizeObj_perm {l1 l2 : Dict} (h : l1.Perm l2) : jsizeObj l1 = jsizeObj l2 := by
  induction h with
  | nil => rfl
  | cons x _ ih => simp [jsizeObj, ih]
  | swap x y l => simp [jsizeObj]; omega
  | trans _ _ ih1 ih2 => omega

theorem jsizeObj_sortByKey (l : Dict) : jsizeObj (sortByKey l) = jsizeObj l :=
  jsizeObj_perm (List.perm_insertionSort keyLe l)

/-- Lowercase hex digit. -/
def hexDigitChar (n : Nat) : Char :=
  if n < 10 then Char.ofNat (48 + n) else Char.ofNat (87 + n)

/-- Four lowercase hex digits, for `\uXXXX` escapes. -/
def hex4 (n : Nat) : List Char :=
  [hexDigitChar (n / 4096 % 16), hexDigitChar (n / 256 % 16),
   hexDigitChar (n / 16 % 16), hexDigitChar (n % 16)]

/-- One character of a JSON string literal as `json.dumps` emits it with
the default `ensure_ascii=True`: the two-character shortcuts, printable
ASCII verbatim, `\uXXXX` for the rest (astral characters as a surrogate
pair). -/
def escChar (c : Char) : List Char :=
  if c = '"' then ['\\', '"']
  else if c = '\\' then ['\\', '\\']
  else if c = '\n' then ['\\', 'n']
  else if c = '\t' then ['\\', 't']
  else if c = '\r' then ['\\', 'r']
  else if c.toNat = 8 then ['\\', 'b']
  else if c.toNat = 12 then ['\\', 'f']
  else if 32 ≤ c.toNat ∧ c.toNat < 127 then [c]
  else if c.toNat < 65536 then '\\' :: 'u' :: hex4 c.toNat
  else
    let n := c.toNat - 65536
    '\\' :: 'u' :: (hex4 (55296 + n / 1024) ++ '\\' :: 'u' :: hex4 (56320 + n % 1024))

/-- A JSON string literal: quoted, escaped. -/
def jstrLit (s : String) : String :=
  String.mk ('"' :: (s.data.map escChar).flatten ++ ['"'])

mutual
/-- The canonical serialization `json.dumps(v, sort_keys=True)`: members
of every object sorted by key, separators `", "` and `": "`. -/
def serJVal : JVal → String
  | .jnum n => toString n
  | .jstr s => jstrLit s
  | .jarr xs => "[" ++ serArr xs ++ "]"
  | .jobj kvs => "\x7b" ++ serObj (sortByKey kvs) ++ "\x7d"
  termination_by v => jsize v
  decreasing_by all_goals (simp [jsize, jsizeArr, jsizeObj, jsizeObj_sortByKey]; try omega)
def serArr : List JVal → String
  | [] => ""
  | [x] => serJVal x
  | x :: y :: rest => serJVal x ++ ", " ++ serArr (y :: rest)
  termination_by l => jsizeArr l
  decreasing_by all_goals (simp [jsize, jsizeArr, jsizeObj, jsizeObj_sortByKey]; try omega)
def serObj : Dict → String
  | [] => ""
  | [kv] => jstrLit kv.1 ++ ": " ++ serJVal kv.2
  | kv :: kv2 :: rest => jstrLit kv.1 ++ ": " ++ serJVal kv.2 ++ ", " ++ serObj (kv2 :: rest)
  termination_by l => jsizeObj l
  decreasing_by all_goals (simp [jsize, jsizeArr, jsizeObj, jsizeObj_sortByKey]; try omega)
end

/-- UTF-8 bytes of one character, as `str.encode()` produces them. -/
def utf8Char (c : Char) : List Nat :=
  let n := c.toNat
  if n < 128 then [n]
  else if n < 2048 then [192 + n / 64, 128 + n % 64]
  else if n < 65536 then [224 + n / 4096, 128 + n / 64 % 64, 128 + n % 64]
  else [240 + n / 262144, 128 + n / 4096 % 64, 128 + n / 64 % 64, 128 + n % 64]

/-- UTF-8 encoding of a string (`block_string = ….encode()`). -/
def strBytes (s : String) : List Nat := (s.data.map utf8Char).flatten

/-- Truncation to a 32-bit word. -/
def w32 (x : Nat) : Nat := x % 4294967296

/-- 32-bit right rotation. -/
def rotr32 (n x : Nat) : Nat := w32 ((x >>> n) ||| (x <<< (32 - n)))

/-- SHA-256 `Ch` (the complement taken by xor with the 32-bit mask). -/
def chF (x y z : Nat) : Nat := (x &&& y) ^^^ ((x ^^^ 4294967295) &&& z)

/-- SHA-256 `Maj`. -/
def majF (x y z : Nat) : Nat := (x &&& y) ^^^ (x &&& z) ^^^ (y &&& z)

/-- SHA-256 `Σ0`. -/
def bsig0 (x : Nat) : Nat := rotr32 2 x ^^^ rotr32 13 x ^^^ rotr32 22 x

/-- SHA-256 `Σ1`. -/
def bsig1 (x : Nat) : Nat := rotr32 6 x ^^^ rotr32 11 x ^^^ rotr32 25 x

/-- SHA-256 `σ0`. -/
def ssig0 (x : Nat) : Nat := rotr32 7 x ^^^ rotr32 18 x ^^^ (x >>> 3)

/-- SHA-256 `σ1`. -/
def ssig1 (x : Nat) : Nat := rotr32 17 x ^^^ rotr32 19 x ^^^ (x >>> 10)

/-- The 64 SHA-256 round constants. -/
def sha256K : List Nat :=
  [1116352408, 1899447441, 3049323471, 3921009573, 961987163, 1508970993,
   2453635748, 2870763221, 3624381080, 310598401, 607225278, 1426881987,
   1925078388, 2162078206, 2614888103, 3248222580, 3835390401, 4022224774,
   264347078, 604807628, 770255983, 1249150122, 1555081692, 1996064986,
   2554220882, 2821834349, 2952996808, 3210313671, 3336571891, 3584528711,
   113926993, 338241895, 666307205, 773529912, 1294757372, 1396182291,
   1695183700, 1986661051, 2177026350, 2456956037, 2730485921, 2820302411,
   3259730800, 3345764771, 3516065817, 3600352804, 4094571909, 275423344,
   430227734, 506948616, 659060556, 883997877, 958139571, 1322822218,
   1537002063, 1747873779, 1955562222, 2024104815, 2227730452, 2361852424,
   2428436474, 2756734187, 3204031479, 3329325298]

/-- The SHA-256 initial state. -/
def sha256H0 : List Nat :=
  [1779033703, 3144134277, 1013904242, 2773480762, 1359893119, 2600822924,
   528734635, 1541459225]

/-- SHA-256 padding: append `0x80`, zeros to 56 mod 64, then the bit
length as eight big-endian bytes. -/
def padBytes (msg : List Nat) : List Nat :=
  let l := msg.length
  let bitLen := 8 * l
  msg ++ 128 :: List.replicate ((119 - l % 64) % 64) 0 ++
    [bitLen / 72057594037927936 % 256, bitLen / 281474976710656 % 256,
     bitLen / 1099511627776 % 256, bitLen / 4294967296 % 256,
     bitLen / 16777216 % 256, bitLen / 65536 % 256, bitLen / 256 % 256, bitLen % 256]

/-- Big-endian 32-bit words from bytes. -/
def toWords : List Nat → List Nat
  | b0 :: b1 :: b2 :: b3 :: rest => (b0 * 16777216 + b1 * 65536 + b2 * 256 + b3) :: toWords rest
  | _ => []

/-- Split a word list into 16-word chunks. -/
def chunk16 : List Nat → List (List Nat)
  | w0 :: w1 :: w2 :: w3 :: w4 :: w5 :: w6 :: w7 ::
    w8 :: w9 :: w10 :: w11 :: w12 :: w13 :: w14 :: w15 :: rest =>
      [w0, w1, w2, w3, w4, w5, w6, w7, w8, w9, w10, w11, w12, w13, w14, w15] :: chunk16 rest
  | _ => []

/-- Extend a 16-word chunk by `n` schedule words. -/
def scheduleExt : Nat → List Nat → List Nat
  | 0, ws => ws
  | n + 1, ws =>
    let t := ws.length
    let wNew := w32 (ssig1 (ws.getD (t - 2) 0) + ws.getD (t - 7) 0 +
      ssig0 (ws.getD (t - 15) 0) + ws.getD (t - 16) 0)
    scheduleExt n (ws ++ [wNew])

/-- One SHA-256 round on the eight-word working state. -/
def sha256Round (st : List Nat) (k w : Nat) : List Nat :=
  match st with
  | [a, b, c, d, e, f, g, h] =>
    let t1 := w32 (h + bsig1 e + chF e f g + k + w)
    let t2 := w32 (bsig0 a + majF a b c)
    [w32 (t1 + t2), a, b, c, w32 (d + t1), e, f, g]
  | other => other

/-- Fold the 64 rounds over the round constants and schedule. -/
def sha256Compress : List Nat → List Nat → List Nat → List Nat
  | k :: ks, w :: ws, st => sha256Compress ks ws (sha256Round st k w)
  | _, _, st => st

/-- Process one 512-bit chunk. -/
def sha256Chunk (st : List Nat) (ws16 : List Nat) : List Nat :=
  let st2 := sha256Compress sha256K (scheduleExt 48 ws16) st
  List.zipWith (fun x y => w32 (x + y)) st st2

/-- The SHA-256 state after hashing a byte string. -/
def sha256Words (msg : List Nat) : List Nat :=
  (chunk16 (toWords (padBytes msg))).foldl sha256Chunk sha256H0

/-- Eight lowercase hex digits of a 32-bit word. -/
def wordHex (x : Nat) : List Char :=
  [hexDigitChar (x / 268435456 % 16), hexDigitChar (x / 16777216 % 16),
   hexDigitChar (x / 1048576 % 16), hexDigitChar (x / 65536 % 16),
   hexDigitChar (x / 4096 % 16), hexDigitChar (x / 256 % 16),
   hexDigitChar (x / 16 % 16), hexDigitChar (x % 16)]

/-- `hashlib.sha256(bytes).hexdigest()`: the 64-character lowercase hex
digest. -/
def sha256hex (msg : List Nat) : String :=
  String.mk ((sha256Words msg).map wordHex).flatten

/-- The `Blockchain` object: the block store and the pending-transaction
buffer (`self.chain`, `self.pending_transactions`). -/
structure Blockchain where
  chain : List Dict
  pending_transactions : List Dict

/-- `Blockchain.hash(block)`: copy the block, pop its own `"hash"` key,
serialize with `json.dumps(…, sort_keys=True).encode()` and return the
SHA-256 hex digest. -/
def Blockchain.hash (block : Dict) : String :=
  sha256hex (strBytes (serJVal (JVal.jobj (eraseKey "hash" block))))

/-- The `last_block` property, `self.chain[-1]`: `none` models the
`IndexError` an empty chain raises. -/
def Blockchain.last_block (bc : Blockchain) : Option Dict := bc.chain.getLast?

/-- The fallback branch of `previous_hash or self.hash(self.chain[-1])`:
hash of the last block, or the `IndexError` of `chain[-1]` on an empty
chain. -/
def prevHashOfLast (bc : Blockchain) : Except String String :=
  match bc.chain.getLast? with
  | none => .error "IndexError"
  | some b => .ok (Blockchain.hash b)

/-- The transaction dict built by `new_transaction`. -/
def txDict (sender recipient : String) (amount : Int) : Dict :=
  [("sender", .jstr sender), ("recipient", .jstr recipient), ("amount", .jnum amount)]

/-- The five fields of a candidate block, in the dict insertion order of
the source. -/
def blockFields (idx timestamp : Int) (txs : List Dict) (proof : Int) (prev : String) : Dict :=
  [("index", .jnum idx),
   ("timestamp", .jnum timestamp),
   ("transactions", .jarr (txs.map JVal.jobj)),
   ("proof", .jnum proof),
   ("previous_hash", .jstr prev)]

/-- `Blockchain.new_block(proof, previous_hash)`: snapshot the pending
transactions, build the candidate block, store its own hash under
`"hash"`, append it to the chain and clear the buffer. The `timestamp`
argument stands for `time.time()`. Python's `previous_hash or …` treats
`None` and the empty string as falsy. The `chain[-1]` lookup the default
needs raises `IndexError` on an empty chain; that raise happens while the
block dict is being built, before any attribute of `self` is written, so
the error branch returns the state unchanged. -/
def Blockchain.new_block (bc : Blockchain) (proof : Int) (previous_hash : Option String)
    (timestamp : Int) : Except String Dict × Blockchain :=
  let block_transactions := bc.pending_transactions
  let prev : Except String String :=
    match previous_hash with
    | some s => if s = "" then prevHashOfLast bc else .ok s
    | none => prevHashOfLast bc
  match prev with
  | .error e => (.error e, bc)
  | .ok ph =>
    let block := blockFields ((bc.chain.length : Int) + 1) timestamp block_transactions proof ph
    let sealed := block ++ [("hash", .jstr (Blockchain.hash block))]
    (.ok sealed, { chain := bc.chain ++ [sealed], pending_transactions := [] })

/-- `Blockchain.new_transaction(sender, recipient, amount)`: append the
transaction dict to the buffer, then return `self.last_block["index"] + 1`.
The append precedes the `last_block` read, so even the error outcomes
(empty chain, missing or non-integer index) leave the transaction
recorded. -/
def Blockchain.new_transaction (bc : Blockchain) (sender recipient : String) (amount : Int) :
    Except String Int × Blockchain :=
  let tx := txDict sender recipient amount
  let bc2 : Blockchain := { bc with pending_transactions := bc.pending_transactions ++ [tx] }
  let ret : Except String Int :=
    match bc2.last_block with
    | none => .error "IndexError"
    | some lb =>
      match dictGet lb "index" with
      | some (.jnum i) => .ok (i + 1)
      | some _ => .error "TypeError"
      | none => .error "KeyError"
  (ret, bc2)

/-- `Blockchain.__init__`: empty chain and buffer, then the genesis seal
`new_block(proof=100, previous_hash="1")`. `t0` stands for the clock
reading of that seal. -/
def Blockchain.init (t0 : Int) : Blockchain :=
  (Blockchain.new_block { chain := [], pending_transactions := [] } 100 (some "1") t0).2

/-- `Blockchain.simulate_tamper(index)`: a bounds check on the 1-based
index, reading the chain and mutating nothing. -/
def Blockchain.simulate_tamper (bc : Blockchain) (index : Int) : Bool :=
  if 0 < index ∧ index ≤ (bc.chain.length : Int) then true else false

/-- The loop body of `is_chain_valid` over consecutive pairs: for each
block after the first, its `previous_hash` must equal the predecessor's
stored `hash`, and its stored `hash` must equal the recomputed
`self.hash(curr)`. On the chains this file builds every block carries the
`"previous_hash"` and `"hash"` keys, so the `Option` comparison never
sees a missing key. -/
def chainChecks : List Dict → Bool
  | prev :: curr :: rest =>
    optBeq (dictGet curr "previous_hash") (dictGet prev "hash") &&
    optBeq (dictGet curr "hash") (some (.jstr (Blockchain.hash curr))) &&
    chainChecks (curr :: rest)
  | _ => true

/-- `Blockchain.is_chain_valid()`: scan `chain` from the second block,
short-circuiting on the first failed check. -/
def Blockchain.is_chain_valid (bc : Blockchain) : Bool := chainChecks bc.chain

/-- Replace the value stored under key `k` of the block at 0-based
position `i` — an external in-place mutation of one field of one block,
leaving every other field (in particular the stored hash) untouched. -/
def tamperField : List Dict → Nat → String → JVal → List Dict
  | [], _, _, _ => []
  | b :: rest, 0, k, v => dictSet b k v :: rest
  | b :: rest, n + 1, k, v => b :: tamperField rest n k v

/-- The ledger states reachable from construction by the two mutating
operations, sealing always with the default `previous_hash`. -/
inductive Reachable : Blockchain → Prop where
  | init (t0 : Int) : Reachable (Blockchain.init t0)
  | tx (bc : Blockchain) (s r : String) (a : Int) :
      Reachable bc → Reachable (bc.new_transaction s r a).2
  | sealB (bc : Blockchain) (p t : Int) :
      Reachable bc → Reachable (bc.new_block p none t).2

mutual
/-- Python `==` is reflexive. -/
theorem jvalBeq_refl : ∀ a : JVal, jvalBeq a a = true
  | .jnum a => by simp [jvalBeq]
  | .jstr a => by simp [jvalBeq]
  | .jarr a => by simp [jvalBeq, jarrBeq_refl a]
  | .jobj a => by simp [jvalBeq, jobjBeq_refl a]
theorem jarrBeq_refl : ∀ l : List JVal, jarrBeq l l = true
  | [] => rfl
  | a :: as_ => by simp [jarrBeq, jvalBeq_refl a, jarrBeq_refl as_]
theorem jobjBeq_refl : ∀ l : Dict, jobjBeq l l = true
  | [] => rfl
  | (k, v) :: r => by simp [jobjBeq, jvalBeq_refl v, jobjBeq_refl r]
end

theorem optBeq_refl : ∀ o : Option JVal, optBeq o o = true
  | none => rfl
  | some a => jvalBeq_refl a

/-- A block whose stored `"hash"` entry is the canonical hash of its other
fields (`Blockchain.hash` pops the `"hash"` entry before digesting, so
hashing the whole block is hashing the other fields). -/
def blockSelfHashed (b : Dict) : Prop :=
  dictGet b "hash" = some (.jstr (Blockchain.hash b))

/-- Each block after the first carries the stored hash of its
predecessor in `"previous_hash"`. -/
def linkedChain : List Dict → Prop
  | prev :: curr :: rest =>
    dictGet curr "previous_hash" = dictGet prev "hash" ∧ linkedChain (curr :: rest)
  | _ => True

/-- A linked chain whose non-initial blocks are self-hashed passes the
validator. The first block's own hash is never recomputed by the scan,
so nothing is required of it. -/
theorem chainChecks_eq_true :
    ∀ l : List Dict, linkedChain l → (∀ b ∈ l.tail, blockSelfHashed b) → chainChecks l = true
  | [], _, _ => rfl
  | [_], _, _ => rfl
  | prev :: curr :: rest, hl, hs => by
    have hcurr : blockSelfHashed curr := hs curr (by simp)
    have hrest : chainChecks (curr :: rest) = true :=
      chainChecks_eq_true (curr :: rest) hl.2
        (fun b hb => hs b (List.mem_cons_of_mem curr (by simpa using hb)))
    simp only [chainChecks, hrest, Bool.and_true]
    rw [hl.1, hcurr]
    simp [optBeq_refl]

/-- If the recomputed-hash check fails at any non-initial position, the
whole validation returns `false`. -/
theorem chainChecks_eq_false :
    ∀ (l : List Dict) (j : Nat) (hj : j < l.length), 1 ≤ j →
      optBeq (dictGet (l.get ⟨j, hj⟩) "hash")
        (some (.jstr (Blockchain.hash (l.get ⟨j, hj⟩)))) = false →
      chainChecks l = false
  | [], _, hj, _, _ => by simp at hj
  | [_], j, hj, h1, _ => by simp at hj; omega
  | _ :: _ :: _, 0, _, h1, _ => by omega
  | prev :: curr :: rest, 1, _, _, hfail => by
    simp only [chainChecks]
    simp only [List.get] at hfail
    rw [hfail]
    simp
  | prev :: curr :: rest, j + 2, hj, _, hfail => by
    have hrec : chainChecks (curr :: rest) = false :=
      chainChecks_eq_false (curr :: rest) (j + 1) (by simpa using hj) (by omega)
        (by simpa using hfail)
    simp [chainChecks, hrec]

/-- Stored/recomputed hash agreement and inter-block links, read off
positionally from `linkedChain`. -/
theorem linkedChain_get :
    ∀ (l : List Dict), linkedChain l → ∀ (i : Nat) (hi : i + 1 < l.length),
      dictGet (l.get ⟨i + 1, hi⟩) "previous_hash" =
      dictGet (l.get ⟨i, Nat.lt_of_succ_lt hi⟩) "hash"
  | prev :: curr :: rest, hl, 0, _ => hl.1
  | prev :: curr :: rest, hl, i + 1, hi =>
    linkedChain_get (curr :: rest) hl.2 i (by simpa using hi)

/-- Appending a block linked to the previous last block preserves
`linkedChain`. -/
theorem linkedChain_append :
    ∀ (l : List Dict) (b : Dict), linkedChain l →
      (∀ lastB, l.getLast? = some lastB →
        dictGet b "previous_hash" = dictGet lastB "hash") →
      linkedChain (l ++ [b])
  | [], b, _, _ => trivial
  | [a], b, _, hlink => ⟨hlink a rfl, trivial⟩
  | a :: c :: rest, b, hl, hlink => by
    refine ⟨hl.1, ?_⟩
    exact linkedChain_append (c :: rest) b hl.2 (fun lastB h => hlink lastB (by simpa using h))

/-- The last element of a list is an element. -/
theorem mem_of_getLast?Eq : ∀ {l : List Dict} {b : Dict}, l.getLast? = some b → b ∈ l
  | [], _, h => by simp at h
  | [a], b, h => by simp at h; simp [h]
  | a :: c :: rest, b, h => by
    have : b ∈ c :: rest := mem_of_getLast?Eq (by simpa using h)
    simp [this]

/-- The candidate block `new_block` builds from a state, a proof value, a
clock reading and a resolved predecessor hash. -/
def candidateOf (bc : Blockchain) (p t : Int) (ph : String) : Dict :=
  blockFields ((bc.chain.length : Int) + 1) t bc.pending_transactions p ph

/-- The candidate block with its own canonical hash stored under
`"hash"`, as `new_block` appends it to the chain. -/
def sealedOf (bc : Blockchain) (p t : Int) (ph : String) : Dict :=
  candidateOf bc p t ph ++ [("hash", .jstr (Blockchain.hash (candidateOf bc p t ph)))]

/-- Popping `"hash"` from a sealed block recovers its candidate fields. -/
theorem eraseKey_sealed (idx t : Int) (txs : List Dict) (p : Int) (prev : String) (v : JVal) :
    eraseKey "hash" (blockFields idx t txs p prev ++ [("hash", v)]) =
      blockFields idx t txs p prev := rfl

/-- A sealed block hashes like its candidate fields: the stored `"hash"`
entry is popped before digesting. -/
theorem hash_sealed (bc : Blockchain) (p t : Int) (ph : String) :
    Blockchain.hash (sealedOf bc p t ph) = Blockchain.hash (candidateOf bc p t ph) := rfl

/-- A sealed block satisfies the stored-hash invariant. -/
theorem sealedOf_selfHashed (bc : Blockchain) (p t : Int) (ph : String) :
    blockSelfHashed (sealedOf bc p t ph) := rfl

theorem dictGet_sealedOf_index (bc : Blockchain) (p t : Int) (ph : String) :
    dictGet (sealedOf bc p t ph) "index" = some (.jnum ((bc.chain.length : Int) + 1)) := rfl

theorem dictGet_sealedOf_timestamp (bc : Blockchain) (p t : Int) (ph : String) :
    dictGet (sealedOf bc p t ph) "timestamp" = some (.jnum t) := rfl

theorem dictGet_sealedOf_transactions (bc : Blockchain) (p t : Int) (ph : String) :
    dictGet (sealedOf bc p t ph) "transactions" =
      some (.jarr (bc.pending_transactions.map JVal.jobj)) := rfl

theorem dictGet_sealedOf_proof (bc : Blockchain) (p t : Int) (ph : String) :
    dictGet (sealedOf bc p t ph) "proof" = some (.jnum p) := rfl

theorem dictGet_sealedOf_prev (bc : Blockchain) (p t : Int) (ph : String) :
    dictGet (sealedOf bc p t ph) "previous_hash" = some (.jstr ph) := rfl

/-- The successful run of `new_block` with the default `previous_hash` on
a non-empty chain: the sealed block is appended, the buffer cleared, the
sealed block returned. -/
theorem new_block_eq (bc : Blockchain) (p t : Int) (lastB : Dict)
    (h : bc.chain.getLast? = some lastB) :
    bc.new_block p none t =
      (.ok (sealedOf bc p t (Blockchain.hash lastB)),
        { chain := bc.chain ++ [sealedOf bc p t (Blockchain.hash lastB)],
          pending_transactions := [] }) := by
  simp [Blockchain.new_block, prevHashOfLast, h, candidateOf, sealedOf]

/-- `new_transaction` only appends to the buffer: the returned state has
the same chain and one more pending transaction, whatever the return
value was. -/
theorem new_transaction_state (bc : Blockchain) (s r : String) (a : Int) :
    (bc.new_transaction s r a).2 =
      { bc with pending_transactions := bc.pending_transactions ++ [txDict s r a] } := rfl

/-- The genesis block: the block `__init__`'s seal
`new_block(proof=100, previous_hash="1")` produces at clock reading
`t0` on the empty ledger. -/
def genesisOf (t0 : Int) : Dict :=
  sealedOf { chain := [], pending_transactions := [] } 100 t0 "1"

/-- A fresh ledger is exactly the one-block chain holding the genesis
block, with an empty buffer. -/
theorem init_eq (t0 : Int) :
    Blockchain.init t0 = { chain := [genesisOf t0], pending_transactions := [] } := rfl

/-- The inductive invariant: a reachable ledger has a non-empty chain,
consecutive blocks are hash-linked, and every block stores the canonical
hash of its other fields. -/
def GoodState (bc : Blockchain) : Prop :=
  bc.chain ≠ [] ∧ linkedChain bc.chain ∧ ∀ b ∈ bc.chain, blockSelfHashed b

theorem reachable_good {bc : Blockchain} (h : Reachable bc) : GoodState bc := by
  induction h with
  | init t0 =>
    refine ⟨by simp [init_eq], ?_, ?_⟩
    · rw [init_eq]; exact trivial
    · rw [init_eq]
      intro b hb
      simp only [List.mem_singleton] at hb
      subst hb
      exact sealedOf_selfHashed _ _ _ _
  | tx bc s r a _ ih =>
    rw [new_transaction_state]
    exact ih
  | sealB bc p t _ ih =>
    obtain ⟨hne, hlink, hself⟩ := ih
    obtain ⟨lastB, hlast⟩ : ∃ b, bc.chain.getLast? = some b := by
      cases hc : bc.chain.getLast? with
      | none => exact absurd (List.getLast?_eq_none_iff.1 hc) hne
      | some b => exact ⟨b, rfl⟩
    rw [new_block_eq bc p t lastB hlast]
    refine ⟨by simp, ?_, ?_⟩
    · refine linkedChain_append bc.chain _ hlink ?_
      intro lb hlb
      rw [hlast] at hlb
      cases hlb
      rw [dictGet_sealedOf_prev, hself lastB (mem_of_getLast?Eq hlast)]
    · intro b hb
      rcases List.mem_append.1 hb with hb | hb
      · exact hself b hb
      · simp only [List.mem_singleton] at hb
        subst hb
        exact sealedOf_selfHashed _ _ _ _

/-- Strict key order on object members. -/
def keyLt (a b : String × JVal) : Prop := a.1 < b.1

instance : IsAntisymm (String × JVal) keyLt :=
  ⟨fun _ _ h1 h2 => absurd h2 (lt_asymm h1)⟩

/-- A key-sorted member list with no duplicate keys is strictly
key-sorted. -/
theorem sorted_keyLt_of {l : Dict} (hs : List.Sorted keyLe l)
    (hnd : (l.map Prod.fst).Nodup) : List.Sorted keyLt l := by
  have hne : l.Pairwise (fun a b : String × JVal => a.1 ≠ b.1) := List.pairwise_map.1 hnd
  exact (hs.and hne).imp fun h => lt_of_le_of_ne h.1 h.2

/-- Sorting by key is insensitive to the input order of a duplicate-free
member list: any two permutations of one dict sort identically. -/
theorem sortByKey_eq_of_perm {l1 l2 : Dict} (hnd : (l1.map Prod.fst).Nodup)
    (hp : l1.Perm l2) : sortByKey l1 = sortByKey l2 := by
  have hp1 : (sortByKey l1).Perm (sortByKey l2) :=
    (List.perm_insertionSort keyLe l1).trans
      (hp.trans (List.perm_insertionSort keyLe l2).symm)
  have hnd1 : ((sortByKey l1).map Prod.fst).Nodup :=
    (((List.perm_insertionSort keyLe l1).map Prod.fst).nodup_iff).2 hnd
  have hnd2 : ((sortByKey l2).map Prod.fst).Nodup :=
    ((hp1.map Prod.fst).nodup_iff).1 hnd1
  exact List.eq_of_perm_of_sorted hp1
    (sorted_keyLt_of (List.sorted_insertionSort keyLe l1) hnd1)
    (sorted_keyLt_of (List.sorted_insertionSort keyLe l2) hnd2)

/-- `eraseKey` is the filter keeping the other keys. -/
theorem eraseKey_eq_filter (k : String) :
    ∀ d : Dict, eraseKey k d = d.filter (fun kv => decide (kv.1 ≠ k))
  | [] => rfl
  | (k1, v) :: rest => by
    by_cases h : k1 = k <;>
      simp [eraseKey, List.filter, h, eraseKey_eq_filter k rest]

/-- `eraseKey` preserves permutations. -/
theorem eraseKey_perm {l1 l2 : Dict} (k : String) (hp : l1.Perm l2) :
    (eraseKey k l1).Perm (eraseKey k l2) := by
  rw [eraseKey_eq_filter, eraseKey_eq_filter]
  exact hp.filter _

/-- `eraseKey` keeps the key list duplicate-free. -/
theorem eraseKey_nodup {l : Dict} (k : String) (hnd : (l.map Prod.fst).Nodup) :
    ((eraseKey k l).map Prod.fst).Nodup := by
  rw [eraseKey_eq_filter]
  exact ((List.filter_sublist l).map Prod.fst).nodup hnd

/-- Removing a key after writing it is removing it from the original. -/
theorem eraseKey_dictSet_self (k : String) (v : JVal) :
    ∀ d : Dict, eraseKey k (dictSet d k v) = eraseKey k d
  | [] => by simp [dictSet, eraseKey]
  | (k1, v1) :: rest => by
    by_cases h : k1 = k <;>
      simp [dictSet, eraseKey, h, eraseKey_dictSet_self k v rest]

/-- `eraseKey` is idempotent. -/
theorem eraseKey_idem (k : String) :
    ∀ d : Dict, eraseKey k (eraseKey k d) = eraseKey k d
  | [] => rfl
  | (k1, v1) :: rest => by
    by_cases h : k1 = k <;> simp [eraseKey, h, eraseKey_idem k rest]

/-- Writing one key leaves every other key's value unchanged. -/
theorem dictGet_dictSet_ne (k k1 : String) (v : JVal) (hne : k ≠ k1) :
    ∀ d : Dict, dictGet (dictSet d k v) k1 = dictGet d k1
  | [] => by simp [dictSet, dictGet, hne]
  | (k2, v2) :: rest => by
    by_cases h : k2 = k
    · subst h
      simp [dictSet, dictGet, hne]
    · simp [dictSet, dictGet, h, dictGet_dictSet_ne k k1 v hne rest]

theorem tamperField_length (k : String) (v : JVal) :
    ∀ (l : List Dict) (j : Nat), (tamperField l j k v).length = l.length
  | [], _ => rfl
  | _ :: rest, 0 => rfl
  | _ :: rest, j + 1 => by simp [tamperField, tamperField_length k v rest j]

/-- The tampered position holds the field-rewritten block. -/
theorem tamperField_get_self (k : String) (v : JVal) :
    ∀ (l : List Dict) (j : Nat) (hj : j < l.length),
      (tamperField l j k v).get ⟨j, by rw [tamperField_length]; exact hj⟩ =
        dictSet (l.get ⟨j, hj⟩) k v
  | _ :: rest, 0, _ => rfl
  | _ :: rest, j + 1, hj => tamperField_get_self k v rest j (by simpa using hj)

/-- C7: a freshly constructed ledger has a chain of length exactly 1
whose only block — the genesis block — has index 1, proof 100, an empty
transaction list, the sentinel previous hash "1", and a stored hash equal
to the canonical hash of its other fields. -/
theorem C7_genesis_block (t0 : Int) :
    (Blockchain.init t0).chain.length = 1 ∧
    (Blockchain.init t0).chain = [genesisOf t0] ∧
    dictGet (genesisOf t0) "index" = some (.jnum 1) ∧
    dictGet (genesisOf t0) "proof" = some (.jnum 100) ∧
    dictGet (genesisOf t0) "transactions" = some (.jarr []) ∧
    dictGet (genesisOf t0) "previous_hash" = some (.jstr "1") ∧
    dictGet (genesisOf t0) "hash" = some (.jstr (Blockchain.hash (genesisOf t0))) :=
  ⟨rfl, rfl, rfl, rfl, rfl, rfl, sealedOf_selfHashed _ _ _ _⟩

/-- C4: sealing with the default `previous_hash` on an empty chain fails
with the modelled `IndexError` of `chain[-1]` instead of fabricating a
predecessor, and the returned state is exactly the input state: the chain
is not extended and the pending buffer keeps its contents. -/
theorem C4_empty_chain_seal_fails (bc : Blockchain) (p t : Int) (h : bc.chain = []) :
    bc.new_block p none t = (.error "IndexError", bc) := by
  simp [Blockchain.new_block, prevHashOfLast, h]

theorem C4_witness :
    Blockchain.new_block { chain := [], pending_transactions := [txDict "A" "B" 3] } 7 none 0 =
      (.error "IndexError", { chain := [], pending_transactions := [txDict "A" "B" 3] }) :=
  C4_empty_chain_seal_fails _ 7 0 rfl

/-- C9: `simulate_tamper` is a pure bounds check: it returns `true`
exactly when the 1-based index lies within the chain, and — being a
read-only function of the state in this embedding, as in the source — it
leaves the chain and pending buffer untouched. -/
theorem C9_simulate_tamper_bounds (bc : Blockchain) (index : Int) :
    bc.simulate_tamper index = true ↔ 1 ≤ index ∧ index ≤ (bc.chain.length : Int) := by
  by_cases hc : 0 < index ∧ index ≤ (bc.chain.length : Int) <;>
    simp [Blockchain.simulate_tamper, hc] <;> omega

/-- C8: with a non-empty chain whose last block stores integer index `i`,
`new_transaction` appends exactly the one transaction dict to the end of
the pending buffer, returns `i + 1`, and leaves the chain unchanged. -/
theorem C8_new_transaction_appends (bc : Blockchain) (s r : String) (a i : Int) (lastB : Dict)
    (h1 : bc.chain.getLast? = some lastB)
    (h2 : dictGet lastB "index" = some (.jnum i)) :
    bc.new_transaction s r a =
      (.ok (i + 1),
        { chain := bc.chain,
          pending_transactions := bc.pending_transactions ++ [txDict s r a] }) := by
  simp [Blockchain.new_transaction, Blockchain.last_block, h1, h2]

theorem C8_witness :
    (Blockchain.init 0).new_transaction "A" "B" 10 =
      (.ok 2, { chain := (Blockchain.init 0).chain,
                pending_transactions := [txDict "A" "B" 10] }) :=
  C8_new_transaction_appends _ "A" "B" 10 1 (genesisOf 0) rfl rfl

/-- C10: the core validates nothing in `new_transaction`: for any sender
and recipient strings (the empty string included) and any amount
(negative included) the call succeeds and records the transaction
verbatim; the only filtering of empty names or non-positive amounts in
the source sits in the presentation layer's submit handler. -/
theorem C10_core_accepts_any_input (bc : Blockchain) (s r : String) (a i : Int) (lastB : Dict)
    (h1 : bc.chain.getLast? = some lastB)
    (h2 : dictGet lastB "index" = some (.jnum i)) :
    (bc.new_transaction s r a).1 = .ok (i + 1) ∧
    ((bc.new_transaction s r a).2).pending_transactions =
      bc.pending_transactions ++ [txDict s r a] ∧
    ((bc.new_transaction s r a).2).chain = bc.chain := by
  simp [Blockchain.new_transaction, Blockchain.last_block, h1, h2]

theorem C10_witness :
    ((Blockchain.init 0).new_transaction "" "" (-5)).1 = .ok 2 ∧
    (((Blockchain.init 0).new_transaction "" "" (-5)).2).pending_transactions =
      [txDict "" "" (-5)] ∧
    (((Blockchain.init 0).new_transaction "" "" (-5)).2).chain = (Blockchain.init 0).chain :=
  C10_core_accepts_any_input _ "" "" (-5) 1 (genesisOf 0) rfl rfl

/-- C5: the canonical hash is insensitive to field-insertion order — any
two insertion orders of one duplicate-free field set produce the same
digest (determinism itself is definitional: the hash is a function of the
field set). -/
theorem C5_hash_insertion_order_independent (b1 b2 : Dict)
    (hnd : (b1.map Prod.fst).Nodup) (hp : b1.Perm b2) :
    Blockchain.hash b1 = Blockchain.hash b2 := by
  have hperm : (eraseKey "hash" b1).Perm (eraseKey "hash" b2) := eraseKey_perm _ hp
  have hnd1 := eraseKey_nodup (l := b1) "hash" hnd
  have hsort : sortByKey (eraseKey "hash" b1) = sortByKey (eraseKey "hash" b2) :=
    sortByKey_eq_of_perm hnd1 hperm
  unfold Blockchain.hash
  congr 2
  simp [serJVal, hsort]

theorem C5_witness :
    Blockchain.hash
      [("index", .jnum 1), ("timestamp", .jnum 7), ("transactions", .jarr []),
       ("proof", .jnum 9), ("previous_hash", .jstr "1")] =
    Blockchain.hash
      [("index", .jnum 1), ("timestamp", .jnum 7), ("transactions", .jarr []),
       ("previous_hash", .jstr "1"), ("proof", .jnum 9)] :=
  C5_hash_insertion_order_independent _ _ (by decide)
    (List.Perm.cons _ (List.Perm.cons _ (List.Perm.cons _
      (List.Perm.swap ("previous_hash", JVal.jstr "1") ("proof", JVal.jnum 9) []))))

/-- C6: the canonical hash never reads the block's own `"hash"` entry:
writing any value under `"hash"` — or leaving the key absent — yields the
digest of the block with the entry removed. -/
theorem C6_hash_ignores_hash_field (b : Dict) (v : JVal) :
    Blockchain.hash (dictSet b "hash" v) = Blockchain.hash (eraseKey "hash" b) ∧
    Blockchain.hash b = Blockchain.hash (eraseKey "hash" b) := by
  unfold Blockchain.hash
  rw [eraseKey_dictSet_self, eraseKey_idem]
  exact ⟨rfl, rfl⟩

/-- C1: on every ledger state reachable from construction by
`new_transaction` and default-`previous_hash` `new_block` calls, each
block after the first stores its predecessor's hash in `previous_hash`,
every block stores the canonical hash of its other fields, and
`is_chain_valid` returns `true` (in particular after each seal). -/
theorem C1_reachable_chain_invariants (bc : Blockchain) (h : Reachable bc) :
    (∀ (i : Nat) (hi : i + 1 < bc.chain.length),
      dictGet (bc.chain.get ⟨i + 1, hi⟩) "previous_hash" =
        dictGet (bc.chain.get ⟨i, Nat.lt_of_succ_lt hi⟩) "hash") ∧
    (∀ b ∈ bc.chain, dictGet b "hash" = some (.jstr (Blockchain.hash b))) ∧
    bc.is_chain_valid = true := by
  obtain ⟨hne, hlink, hself⟩ := reachable_good h
  refine ⟨fun i hi => linkedChain_get bc.chain hlink i hi, hself, ?_⟩
  exact chainChecks_eq_true bc.chain hlink (fun b hb => hself b (List.mem_of_mem_tail hb))

theorem C1_witness :
    ((Blockchain.init 0).new_block 123 none 1).2.is_chain_valid = true :=
  (C1_reachable_chain_invariants _ (Reachable.sealB _ 123 1 (Reachable.init 0))).2.2

/-- The fresh ledger of the concrete scenario of C3 after buffering the
one transaction from "A" to "B" over 10. -/
def scenarioLedger : Blockchain := ((Blockchain.init 0).new_transaction "A" "B" 10).2

/-- The block the scenario's `new_block(proof=123)` seals (clock reading
1). -/
def scenarioBlock : Dict := sealedOf scenarioLedger 123 1 (Blockchain.hash (genesisOf 0))

/-- C3: on any non-empty chain, `new_block(proof)` with the default
`previous_hash` appends and returns exactly one block — index one past
the prior length, the given proof, the hash of the previous last block as
`previous_hash`, and the pending buffer's contents at call time as its
transactions — leaving the buffer empty; transactions appended later
leave the chain, hence the sealed block, unchanged. Concretely: after
appending the ("A", "B", 10) transaction to a fresh ledger and sealing
with proof 123, the chain is genesis followed by a block with index 2,
that single transaction, the genesis hash as `previous_hash`, and
`is_chain_valid` returns `true`. -/
theorem C3_seal_snapshot :
    (∀ (bc : Blockchain) (p t : Int) (lastB : Dict), bc.chain.getLast? = some lastB →
      bc.new_block p none t =
        (.ok (sealedOf bc p t (Blockchain.hash lastB)),
          { chain := bc.chain ++ [sealedOf bc p t (Blockchain.hash lastB)],
            pending_transactions := [] }) ∧
      dictGet (sealedOf bc p t (Blockchain.hash lastB)) "index" =
        some (.jnum ((bc.chain.length : Int) + 1)) ∧
      dictGet (sealedOf bc p t (Blockchain.hash lastB)) "proof" = some (.jnum p) ∧
      dictGet (sealedOf bc p t (Blockchain.hash lastB)) "previous_hash" =
        some (.jstr (Blockchain.hash lastB)) ∧
      dictGet (sealedOf bc p t (Blockchain.hash lastB)) "transactions" =
        some (.jarr (bc.pending_transactions.map JVal.jobj)) ∧
      (∀ (s r : String) (a : Int),
        (((bc.new_block p none t).2).new_transaction s r a).2.chain =
          bc.chain ++ [sealedOf bc p t (Blockchain.hash lastB)])) ∧
    ((scenarioLedger.new_block 123 none 1).2.chain = [genesisOf 0, scenarioBlock] ∧
      (scenarioLedger.new_block 123 none 1).1 = .ok scenarioBlock ∧
      (scenarioLedger.new_block 123 none 1).2.pending_transactions = [] ∧
      dictGet scenarioBlock "index" = some (.jnum 2) ∧
      dictGet scenarioBlock "transactions" = some (.jarr [.jobj (txDict "A" "B" 10)]) ∧
      dictGet scenarioBlock "previous_hash" = dictGet (genesisOf 0) "hash" ∧
      (scenarioLedger.new_block 123 none 1).2.is_chain_valid = true) := by
  constructor
  · intro bc p t lastB h
    refine ⟨new_block_eq bc p t lastB h, rfl, rfl, rfl, rfl, ?_⟩
    intro s r a
    rw [new_block_eq bc p t lastB h]
    rfl
  · refine ⟨rfl, rfl, rfl, rfl, rfl, rfl, ?_⟩
    exact chainChecks_eq_true [genesisOf 0, scenarioBlock] ⟨rfl, trivial⟩
      (fun b hb => by
        simp only [List.tail_cons, List.mem_singleton] at hb
        subst hb
        exact sealedOf_selfHashed _ _ _ _)

theorem C3_witness :
    (Blockchain.init 5).new_block 7 none 9 =
      (.ok (sealedOf (Blockchain.init 5) 7 9 (Blockchain.hash (genesisOf 5))),
        { chain := (Blockchain.init 5).chain ++
            [sealedOf (Blockchain.init 5) 7 9 (Blockchain.hash (genesisOf 5))],
          pending_transactions := [] }) :=
  (C3_seal_snapshot.1 (Blockchain.init 5) 7 9 (genesisOf 5) rfl).1

/-- A two-block ledger: fresh construction followed by one default seal
(proof 42, clock reading 1). Its genesis block is non-terminal. -/
def cexLedger : Blockchain := ((Blockchain.init 0).new_block 42 none 1).2

/-- `cexLedger` after externally rewriting the genesis block's `"proof"`
field to 999 without recomputing its stored hash. -/
def cexTampered : Blockchain :=
  { chain := tamperField cexLedger.chain 0 "proof" (.jnum 999),
    pending_transactions := [] }

/-- C2 fails on the genesis block: the validator never recomputes the
first block's own hash, so rewriting the genesis `"proof"` field (100 to
999, stored hash untouched) leaves `is_chain_valid` returning `true`. -/
theorem C2_counterexample_genesis_tamper :
    cexLedger.chain.length = 2 ∧
    dictGet (cexLedger.chain.getD 0 []) "proof" = some (.jnum 100) ∧
    dictGet (cexTampered.chain.getD 0 []) "proof" = some (.jnum 999) ∧
    dictGet (cexTampered.chain.getD 0 []) "hash" =
      dictGet (cexLedger.chain.getD 0 []) "hash" ∧
    cexLedger.is_chain_valid = true ∧
    cexTampered.is_chain_valid = true := by
  refine ⟨rfl, rfl, rfl, rfl, ?_, ?_⟩
  · exact chainChecks_eq_true
      [genesisOf 0, sealedOf (Blockchain.init 0) 42 1 (Blockchain.hash (genesisOf 0))]
      ⟨rfl, trivial⟩
      (fun b hb => by
        simp only [List.tail_cons, List.mem_singleton] at hb
        subst hb
        exact sealedOf_selfHashed _ _ _ _)
  · exact chainChecks_eq_true
      [dictSet (genesisOf 0) "proof" (.jnum 999),
       sealedOf (Blockchain.init 0) 42 1 (Blockchain.hash (genesisOf 0))]
      ⟨rfl, trivial⟩
      (fun b hb => by
        simp only [List.tail_cons, List.mem_singleton] at hb
        subst hb
        exact sealedOf_selfHashed _ _ _ _)

/-- C2 (amended): rewriting any single non-`"hash"` field of a
non-terminal block at 1-based position at least 2 makes `is_chain_valid`
return `false` — unless the rewritten block's canonical SHA-256 digest
collides with the original digest (for an actual change of value that is
a SHA-256 collision of two distinct serializations; when the field is
rewritten to its old value nothing changed and the right disjunct holds
trivially). Tampering the genesis block this way is not detected, as
`C2_counterexample_genesis_tamper` shows. `j` is the 0-based position, so
`1 ≤ j` is position at least 2 and `j + 1 < l.length` is non-terminal. -/
theorem C2_tamper_detected_after_genesis (l : List Dict) (pend : List Dict)
    (j : Nat) (k : String) (v : JVal)
    (hj1 : 1 ≤ j) (hj : j < l.length) (hjt : j + 1 < l.length)
    (hs : blockSelfHashed (l.get ⟨j, hj⟩))
    (hk : k ≠ "hash") :
    (Blockchain.mk (tamperField l j k v) pend).is_chain_valid = false ∨
      Blockchain.hash (dictSet (l.get ⟨j, hj⟩) k v) = Blockchain.hash (l.get ⟨j, hj⟩) := by
  by_cases hcol :
      Blockchain.hash (dictSet (l.get ⟨j, hj⟩) k v) = Blockchain.hash (l.get ⟨j, hj⟩)
  · exact Or.inr hcol
  · left
    unfold Blockchain.is_chain_valid
    apply chainChecks_eq_false (tamperField l j k v) j
      (by rw [tamperField_length]; exact hj) hj1
    rw [tamperField_get_self k v l j hj, dictGet_dictSet_ne k "hash" v hk, hs]
    simp only [optBeq, jvalBeq]
    exact beq_eq_false_iff_ne.2 (fun he => hcol he.symm)

/-- A three-block ledger for exercising the amended C2 at its middle
block. -/
def c2wLedger : Blockchain :=
  (((Blockchain.init 0).new_block 5 none 1).2.new_block 6 none 2).2

theorem C2_witness :
    (Blockchain.mk (tamperField c2wLedger.chain 1 "proof" (.jnum 999)) []).is_chain_valid
        = false ∨
      Blockchain.hash (dictSet (c2wLedger.chain.get ⟨1, by decide⟩) "proof" (.jnum 999)) =
        Blockchain.hash (c2wLedger.chain.get ⟨1, by decide⟩) :=
  C2_tamper_detected_after_genesis c2wLedger.chain [] 1 "proof" (.jnum 999)
    (by decide) (by decide) (by decide) rfl (by decide)
